import Mathlib

/-!
Verification of the stacked-spectrum fitting module (grizli, file
src/grizli/stack.py) through a shallow embedding in Lean 4.

Conventions used in the embedding:
* machine floating-point values are modelled as exact rationals;
* values that may be non-finite (NaN or an infinity) are modelled as
  Option rationals, with none standing for any non-finite value;
* numpy arrays become lists or index functions, axis sums become
  explicit finite sums;
* external collaborators (the NNLS solver of scipy, the square root,
  the IGM transmission of the eazy package, the log-spaced redshift
  grid helper living outside this file) enter as parameters of the
  embedded functions or as definitions modelled from the spec.

The file is organized as definitions first, then theorems.
-/

/-! # Definitions -/

/-- Sum of the values of a function over the indices below a bound,
mirroring a numpy sum along an axis. -/
def qsum (n : ℕ) (f : ℕ → ℚ) : ℚ :=
  match n with
  | 0 => 0
  | m + 1 => qsum m f + f m

/-- Numeric value of a boolean mask entry, mirroring numpy boolean
broadcasting into arithmetic. -/
def boolQ (b : Bool) : ℚ :=
  if b then 1 else 0

/-! ## Dispersion model (StackedSpectrum._build_model, compute_model)

The source builds, for every detector column j, the placement of the
normalized spatial kernel into the diagonal band of a
(columns x pixels) design matrix, truncating the kernel at the first
and at the last ny/2 columns.  The kernel is an (ny x ny) image, the
detector has ny rows and nx columns; integer division is the floor
division of Python. -/

/-- Entry at pixel (r, c) of the design-matrix row of source column j,
as laid out by the three placement loops of the source. -/
def fitData (ny nx : ℕ) (kernel : ℕ → ℕ → ℚ) (j r c : ℕ) : ℚ :=
  if j < ny / 2 then
    if c < j + ny / 2 then kernel r (c + ny - ny / 2 - j) else 0
  else if j < nx - ny / 2 then
    if j - ny / 2 ≤ c ∧ c < j + ny / 2 then kernel r (c + ny / 2 - j) else 0
  else if j < nx then
    if j - ny / 2 ≤ c ∧ c < nx then kernel r (c + ny / 2 - j) else 0
  else 0

/-- Flat reference model: compute_model with no input spectrum uses a
unit flux density at every column, so the pixel image is the plain sum
of the per-column placements. -/
def flatPix (ny nx : ℕ) (kernel : ℕ → ℕ → ℚ) (r c : ℕ) : ℚ :=
  qsum nx (fun j => fitData ny nx kernel j r c)

/-! ## Optimal extraction (StackedSpectrum.optimal_extract)

The source divides the flat model by its column sums to obtain the
extraction profile, then forms the profile-weighted flux with inverse
variance weights.  Columns whose weighted denominator vanishes (zero
or non-finite variance) are clipped to zero and are not valid. -/

/-- Column sum of a pixel image (a numpy sum over axis 0). -/
def colSum (ny : ℕ) (img : ℕ → ℕ → ℚ) (c : ℕ) : ℚ :=
  qsum ny (fun r => img r c)

/-- Extraction profile: the flat model normalized by its column sums. -/
def profCol (ny : ℕ) (flat : ℕ → ℕ → ℚ) (r c : ℕ) : ℚ :=
  flat r c / colSum ny flat c

/-- Numerator of the optimal extraction at a column. -/
def extractNum (ny : ℕ) (flat data ivar : ℕ → ℕ → ℚ) (c : ℕ) : ℚ :=
  qsum ny (fun r => profCol ny flat r c * data r c * ivar r c)

/-- Denominator of the optimal extraction at a column; the column is
valid exactly when this value is nonzero (in exact arithmetic the
clipped non-finite case of the source is the zero denominator). -/
def extractDen (ny : ℕ) (flat ivar : ℕ → ℕ → ℚ) (c : ℕ) : ℚ :=
  qsum ny (fun r => profCol ny flat r c ^ 2 * ivar r c)

/-- Extracted one-dimensional flux at a column. -/
def optFlux (ny : ℕ) (flat data ivar : ℕ → ℕ → ℚ) (c : ℕ) : ℚ :=
  extractNum ny flat data ivar c / extractDen ny flat ivar c

/-- The concrete 2 x 2 normalized kernel (all entries 1/4) used for
explicit evaluations. -/
def kernelQuarter (r c : ℕ) : ℚ :=
  if r < 2 ∧ c < 2 then 1 / 4 else 0

/-- The flat model of a 2-row, 4-column exposure with the quarter
kernel. -/
def flatQuarter (r c : ℕ) : ℚ :=
  flatPix 2 4 kernelQuarter r c

/-- Unit inverse variance image. -/
def onesImg (_r _c : ℕ) : ℚ :=
  1

/-! ## Template redshifting and the IGM correction (fit_at_z,
fit_combined_at_z)

fit_at_z redshifts each template as wave*(1+z), flux/(1+z)*igmz, where
igmz is computed inside a try block: when z > 7 it is the IGM
transmission array of the eazy package, otherwise the scalar 1; any
failure (including an import failure) falls back to the scalar 1.
fit_combined_at_z, the variant that joins the photometry, redshifts
each template as wave*(1+z), flux/(1+z) with no IGM factor at all.
The outcome of the external IGM computation is a parameter: some g is
a successful computation returning the transmission array g, none is a
failure. -/

structure Template where
  wave : List ℚ
  flux : List ℚ
deriving DecidableEq

/-- Flux array of a redshifted template given the igmz value of the
source: none models the scalar 1 (no correction), some g models a
transmission array multiplied pointwise onto the flux. -/
def fluxWithIgm (z : ℚ) (flux : List ℚ) (igmz : Option (List ℚ)) : List ℚ :=
  match igmz with
  | none => flux.map (fun f => f / (1 + z))
  | some g => (flux.zip g).map (fun p => p.1 / (1 + z) * p.2)

/-- The igmz value actually used by fit_at_z: the transmission array
only when z > 7 and the external computation succeeds, the scalar 1
otherwise (including on any failure). -/
def appliedIgm (z : ℚ) (igmResult : Option (List ℚ)) : Option (List ℚ) :=
  if 7 < z then igmResult else none

/-- The (wavelength, flux) pair handed by fit_at_z to compute_model
for one template. -/
def fitAtZSpectrum (z : ℚ) (t : Template) (igmResult : Option (List ℚ)) :
    List ℚ × List ℚ :=
  (t.wave.map (fun w => w * (1 + z)), fluxWithIgm z t.flux (appliedIgm z igmResult))

/-- The (wavelength, flux) pair handed by fit_combined_at_z (the fit
that includes the photometry) to compute_model for one template. -/
def combinedSpectrum (z : ℚ) (t : Template) : List ℚ × List ℚ :=
  (t.wave.map (fun w => w * (1 + z)), t.flux.map (fun f => f / (1 + z)))

/-! ## Slices and the background block (StackFitter._get_slices,
StackFitter._init_background) -/

/-- Running-offset slice construction: the loop of _get_slices with the
running start x. -/
def getSlicesFrom (x : ℕ) : List ℕ → List (ℕ × ℕ)
  | [] => []
  | s :: ss => (x, x + s) :: getSlicesFrom (x + s) ss

/-- Slices of the joint data vector, one half-open range per exposure
unit, in order, starting at 0. -/
def getSlices (sizes : List ℕ) : List (ℕ × ℕ) :=
  getSlicesFrom 0 sizes

/-- Start index of slice i: the total size of the first i units. -/
def sliceStart (sizes : List ℕ) (i : ℕ) : ℕ :=
  (sizes.take i).sum

/-- Entry (row i, data index d) of the background design block built
by _init_background: 1 on the slice of unit i, 0 elsewhere. -/
def abgEntry (sizes : List ℕ) (i d : ℕ) : ℚ :=
  match (getSlices sizes).get? i with
  | some sl => if sl.1 ≤ d ∧ d < sl.2 then 1 else 0
  | none => 0

/-! ## Fit-mask narrowing (mask_drizzle_overlaps and the outlier
rejection of fit_zgrid)

Both operations end in an in-place boolean AND onto the stored mask:
E.fit_mask &= new_mask and self.fit_mask &= outlier_mask. -/

structure EUnitMask where
  scif : List ℚ
  sivarf : List ℚ
  fit_mask : List Bool
deriving DecidableEq

/-- One accumulation step of the per-grism minimum image of
mask_drizzle_overlaps: on masked pixels take the minimum with the
science image, and where the accumulator is still empty (zero) on a
masked pixel take the science value itself. -/
def minGrismStep (acc : List ℚ) (E : EUnitMask) : List ℚ :=
  List.zipWith3 (fun a s m => if a = 0 ∧ m = true then s else if m then min a s else a)
    acc E.scif E.fit_mask

/-- The per-grism minimum image over a list of exposure units of one
grism, seeded with the masked science image of the first unit. -/
def minGrism (Es : List EUnitMask) : List ℚ :=
  match Es with
  | [] => []
  | E :: rest => rest.foldl minGrismStep (List.zipWith (fun s m => s * boolQ m) E.scif E.fit_mask)

/-- new_mask of mask_drizzle_overlaps for one exposure unit: keep the
pixels not exceeding the per-grism minimum by threshold sigma. -/
def drizzleNewMask (E : EUnitMask) (ming : List ℚ) (threshold : ℚ) : List Bool :=
  List.zipWith3 (fun s g sv => decide (s - g < threshold / sv)) E.scif ming E.sivarf

/-- The updated mask after E.fit_mask &= new_mask. -/
def drizzleUpdatedMask (E : EUnitMask) (ming : List ℚ) (threshold : ℚ) : List Bool :=
  List.zipWith (fun m n => m && n) E.fit_mask (drizzleNewMask E ming threshold)

/-- outlier_mask of fit_zgrid: residual times root inverse variance
below the outlier threshold. -/
def outlierMask (scif fullz bgz sivarf : List ℚ) (threshold : ℚ) : List Bool :=
  List.zipWith (fun r sv => decide (r * sv < threshold))
    (List.zipWith3 (fun s f b => s - f - b) scif fullz bgz) sivarf

/-- The updated joint mask after self.fit_mask &= outlier_mask. -/
def outlierUpdatedMask (fit_mask : List Bool) (scif fullz bgz sivarf : List ℚ)
    (threshold : ℚ) : List Bool :=
  List.zipWith (fun m n => m && n) fit_mask (outlierMask scif fullz bgz sivarf threshold)

/-! ## The area25 redshift-quality metric (fit_zgrid)

area25 = 1 - trapz(clip(chi2 - chi2.min(), 0, 25), z) / trapz(25, z). -/

/-- np.trapz y x: the trapezoid-rule integral of the samples y over
the sample points x. -/
def trapz : List ℚ → List ℚ → ℚ
  | y0 :: y1 :: ys, x0 :: x1 :: xs => (x1 - x0) * (y0 + y1) / 2 + trapz (y1 :: ys) (x1 :: xs)
  | _, _ => 0

/-- np.clip v lo hi. -/
def clipQ (v lo hi : ℚ) : ℚ :=
  min (max v lo) hi

/-- Minimum of a list of rationals (np.min), 0 on the empty list. -/
def listMin : List ℚ → ℚ
  | [] => 0
  | x :: xs => xs.foldl min x

/-- The redshift-quality metric of fit_zgrid. -/
def area25 (z chi2 : List ℚ) : ℚ :=
  1 - trapz (chi2.map (fun c => clipQ (c - listMin chi2) 0 25)) z /
    trapz (z.map (fun _ => (25 : ℚ))) z

/-- The integer sample grid a, a+1, ..., a+k used in the concrete
area25 evaluations. -/
def consecQ (a : ℚ) : ℕ → List ℚ
  | 0 => [a]
  | k + 1 => a :: consecQ (a + 1) k

/-- A sharply peaked chi-square curve on an integer grid of n+1
points: the minimum 0 is attained at the second grid point and the
curve sits 25 above the minimum everywhere else. -/
def dipCurve (n : ℕ) : List ℚ :=
  25 :: 0 :: List.replicate (n - 1) 25

/-! ## Non-finite values and exposure-unit exclusion
(StackedSpectrum.__init__ kernel normalization and the keep/pop loop
of StackFitter.__init__)

A machine float that may be NaN or an infinity is modelled as an
Option rational, none standing for any non-finite value.  Arithmetic
is strict: an operation touching a non-finite value, and a division
by zero, give a non-finite value.  StackedSpectrum divides the raw
kernel by its sum; StackFitter then keeps a unit exactly when the sum
of the normalized kernel entries is finite, and pops the others from
the extension list before the joint arrays, slices and background
rows are assembled. -/

/-- A machine float: some q is the finite value q, none is NaN or an
infinity. -/
abbrev Flt : Type := Option ℚ

/-- Strict addition on possibly non-finite values. -/
def fadd (a b : Flt) : Flt :=
  match a, b with
  | some x, some y => some (x + y)
  | _, _ => none

/-- Strict multiplication on possibly non-finite values. -/
def fmul (a b : Flt) : Flt :=
  match a, b with
  | some x, some y => some (x * y)
  | _, _ => none

/-- Strict division on possibly non-finite values; dividing by zero
gives a non-finite value. -/
def fdiv (a b : Flt) : Flt :=
  match a, b with
  | some x, some y => if y = 0 then none else some (x / y)
  | _, _ => none

/-- Sum of a list of possibly non-finite values. -/
def fsum (l : List Flt) : Flt :=
  l.foldl fadd (some 0)

/-- Sum of the values of a function over indices below a bound. -/
def fsumN (n : ℕ) (f : ℕ → Flt) : Flt :=
  fsum ((List.range n).map f)

/-- The state of one stacked exposure relevant to the keep/pop
decision of StackFitter.__init__. -/
structure KUnit where
  /-- Raw spatial kernel image (ny rows of ny entries). -/
  kernel : List (List Flt)
  /-- Detector rows. -/
  ny : ℕ
  /-- Detector columns. -/
  nx : ℕ
  /-- Absolute-flux calibration flag of the science header. -/
  is_flambda : Bool
  /-- Per-column sensitivity factors (external configuration data),
  already carrying the wavelength-step scaling; used only when the
  exposure is not absolutely calibrated. -/
  sens : List Flt
  /-- Flattened science pixels. -/
  scif : List ℚ
deriving DecidableEq

/-- Number of pixels of a unit. -/
def unitSize (u : KUnit) : ℕ :=
  u.ny * u.nx

/-- Sum of the raw kernel (np.sum of the kernel image). -/
def kernelRawSum (u : KUnit) : Flt :=
  fsum u.kernel.flatten

/-- The kernel after the in-place normalization kernel /= kernel.sum()
of StackedSpectrum.__init__. -/
def kernelNormList (u : KUnit) : List (List Flt) :=
  u.kernel.map (List.map (fun e => fdiv e (kernelRawSum u)))

/-- Indexed access to the normalized kernel (entries outside the image
contribute nothing). -/
def kernelNormF (u : KUnit) (r c : ℕ) : Flt :=
  ((kernelNormList u).getD r []).getD c (some 0)

/-- Sum of the normalized kernel: the quantity whose finiteness
StackFitter.__init__ tests before keeping a unit. -/
def kernelNormSum (u : KUnit) : Flt :=
  fsum (kernelNormList u).flatten

/-- The keep decision of StackFitter.__init__: np.isfinite of the
normalized kernel sum. -/
def keepUnit (u : KUnit) : Bool :=
  (kernelNormSum u).isSome

/-- The kept exposure units: the append/pop loop of
StackFitter.__init__ keeps exactly the units passing the finiteness
test, in order. -/
def stackE (units : List KUnit) : List KUnit :=
  units.filter (fun u => keepUnit u)

/-- Sizes of the kept units, in order. -/
def stackSizes (units : List KUnit) : List ℕ :=
  (stackE units).map unitSize

/-- Total joint data size over the kept units. -/
def stackNdata (units : List KUnit) : ℕ :=
  (stackSizes units).sum

/-- Slices of the joint vector over the kept units. -/
def stackSlicesK (units : List KUnit) : List (ℕ × ℕ) :=
  getSlices (stackSizes units)

/-- Joint science vector: concatenation of the kept units only. -/
def stackScifJoint (units : List KUnit) : List ℚ :=
  ((stackE units).map (fun u => u.scif)).flatten

/-- Design placement of the normalized kernel in the possibly
non-finite model, mirroring fitData. -/
def fitDataF (ny nx : ℕ) (kf : ℕ → ℕ → Flt) (j r c : ℕ) : Flt :=
  if j < ny / 2 then
    if c < j + ny / 2 then kf r (c + ny - ny / 2 - j) else some 0
  else if j < nx - ny / 2 then
    if j - ny / 2 ≤ c ∧ c < j + ny / 2 then kf r (c + ny / 2 - j) else some 0
  else if j < nx then
    if j - ny / 2 ≤ c ∧ c < nx then kf r (c + ny / 2 - j) else some 0
  else some 0

/-- The per-column factor of _build_model: 1 for an absolutely
calibrated exposure, the sensitivity value otherwise. -/
def colFactor (u : KUnit) (j : ℕ) : Flt :=
  if u.is_flambda then some 1 else u.sens.getD j none

/-- Pixel of the flat reference model in the possibly non-finite
model: sum over source columns of the kernel placement times the
column factor. -/
def flatPixF (u : KUnit) (r c : ℕ) : Flt :=
  fsumN u.nx (fun j => fmul (fitDataF u.ny u.nx (kernelNormF u) j r c) (colFactor u j))

/-- Sum of the flat reference model over all pixels. -/
def flatSumF (u : KUnit) : Flt :=
  fsumN u.ny (fun r => fsumN u.nx (fun c => flatPixF u r c))

/-- A unit whose raw kernel is finite and normalizable (so it is kept)
but whose sensitivity carries a non-finite value, making the flat
model sum non-finite. -/
def badSensUnit : KUnit where
  kernel := [[some 1, some 1], [some 1, some 1]]
  ny := 2
  nx := 2
  is_flambda := false
  sens := [some 1, none]
  scif := [5, 5, 5, 5]

/-- A unit whose raw kernel sums to zero, so the normalization makes
the kernel non-finite and the unit is popped. -/
def zeroKernelUnit : KUnit where
  kernel := [[some 0]]
  ny := 1
  nx := 1
  is_flambda := true
  sens := []
  scif := [7]

/-! ## Matrices as lists of rows, and the covariance branches
(fit_at_z and fit_combined_at_z)

The linear solve works on the design matrix A (background rows first,
template rows after), weighted by the root inverse variance and
restricted to the fit mask.  The uncertainty branch inverts the
normal matrix inside a try block; the bare except of the source turns
every failure into a zero uncertainty vector of length oktemp.sum().
The external NNLS solver of scipy and the square root enter as
parameters. -/

/-- Dot product of two rows. -/
def dotQ (a b : List ℚ) : ℚ :=
  (List.zipWith (fun x y => x * y) a b).sum

/-- Transpose of a rectangular matrix given as a list of rows. -/
def matT (m : List (List ℚ)) : List (List ℚ) :=
  (List.range (m.headD []).length).map (fun j => m.map (fun row => row.getD j 0))

/-- Matrix product. -/
def matMul (a b : List (List ℚ)) : List (List ℚ) :=
  a.map (fun row => (matT b).map (fun col => dotQ row col))

/-- Diagonal of a square matrix. -/
def diagOf (m : List (List ℚ)) : List ℚ :=
  (List.range m.length).map (fun i => (m.getD i []).getD i 0)

/-- First row index with a nonzero entry in column j. -/
def firstNonzeroIdx (j : ℕ) : List (List ℚ) → Option ℕ
  | [] => none
  | r :: rs =>
    if r.getD j 0 ≠ 0 then some 0 else (firstNonzeroIdx j rs).map (fun i => i + 1)

/-- Subtract from a row its column-j entry times the pivot row. -/
def gjElimRow (piv : List ℚ) (j : ℕ) (r : List ℚ) : List ℚ :=
  List.zipWith (fun a b => a - r.getD j 0 * b) r piv

/-- Gauss-Jordan elimination on augmented rows: at each column pick a
remaining row with a nonzero pivot, normalize it, eliminate the column
from every other row; no pivot means a singular matrix (none),
mirroring the error raised by the numpy matrix inverse. -/
def gjAux : ℕ → ℕ → List (List ℚ) → List (List ℚ) → Option (List (List ℚ))
  | 0, _, done, todo =>
    match todo with
    | [] => some done
    | _ :: _ => none
  | fuel + 1, j, done, todo =>
    match todo with
    | [] => some done
    | _ :: _ =>
      match firstNonzeroIdx j todo with
      | none => none
      | some i =>
        let piv := todo.getD i []
        let pn := piv.map (fun a => a / piv.getD j 0)
        let rest := todo.eraseIdx i
        gjAux fuel (j + 1) (done.map (gjElimRow pn j) ++ [pn]) (rest.map (gjElimRow pn j))

/-- Identity matrix. -/
def identQ (n : ℕ) : List (List ℚ) :=
  (List.range n).map (fun i => (List.range n).map (fun j => if i = j then (1 : ℚ) else 0))

/-- Matrix inverse by Gauss-Jordan on the rows augmented with the
identity: some inverse for an invertible matrix, none for a singular
one. -/
def gjInv (a : List (List ℚ)) : Option (List (List ℚ)) :=
  (gjAux a.length 0 [] (List.zipWith (fun r e => r ++ e) a (identQ a.length))).map
    (fun rows => rows.map (fun r => r.drop a.length))

/-- Scatter of the solved values back into the full-size vector:
full[mask] = vals, the other entries stay 0. -/
def scatterVals : List Bool → List ℚ → List ℚ
  | [], _ => []
  | false :: ms, vs => 0 :: scatterVals ms vs
  | true :: ms, [] => 0 :: scatterVals ms []
  | true :: ms, v :: vs => v :: scatterVals ms vs

/-- Input state of the linear solve of fit_at_z: number of background
rows (self.Next), the assembled design matrix, the joint fit mask, the
root inverse variance and the science vector. -/
structure FitInputs where
  Next : ℕ
  A : List (List ℚ)
  fit_mask : List Bool
  sivarf : List ℚ
  scif : List ℚ
deriving DecidableEq

/-- The oktemp filter: keep rows whose masked contribution is not
identically zero ((A*fit_mask).sum(axis=1) != 0). -/
def oktempOf (A : List (List ℚ)) (mask : List Bool) : List Bool :=
  A.map (fun row => decide ((List.zipWith (fun a m => a * boolQ m) row mask).sum ≠ 0))

/-- Rows kept by a boolean filter. -/
def rowsKept (A : List (List ℚ)) (keep : List Bool) : List (List ℚ) :=
  ((A.zip keep).filter (fun p => p.2)).map (fun p => p.1)

/-- Entries of a row selected by the mask (array[mask] indexing). -/
def maskedCols (mask : List Bool) (row : List ℚ) : List ℚ :=
  ((row.zip mask).filter (fun p => p.2)).map (fun p => p.1)

/-- Ax = A[oktemp,:] * sivarf. -/
def fitAx (F : FitInputs) : List (List ℚ) :=
  (rowsKept F.A (oktempOf F.A F.fit_mask)).map
    (fun r => List.zipWith (fun a s => a * s) r F.sivarf)

/-- AxT = Ax[:, fit_mask].T. -/
def fitAxT (F : FitInputs) : List (List ℚ) :=
  matT ((fitAx F).map (maskedCols F.fit_mask))

/-- The weighted normal matrix np.dot(AxT.T, AxT) whose inversion the
uncertainty branch attempts. -/
def fitNormalMat (F : FitInputs) : List (List ℚ) :=
  matMul (matT (fitAxT F)) (fitAxT F)

/-- The masked weighted data vector of the solve, with the 0.04
pedestal added to the science vector. -/
def fitDataVec (F : FitInputs) : List ℚ :=
  maskedCols F.fit_mask (List.zipWith (fun s v => (s + 4 / 100) * v) F.scif F.sivarf)

/-- covard of fit_at_z: the root diagonal of the inverted normal
matrix on success, np.zeros(oktemp.sum()) when the inversion raises
(the except branch); the square root is a parameter since the failure
branch never applies it. -/
def fitCovard (F : FitInputs) (sqrtQ : ℚ → ℚ) : List ℚ :=
  match gjInv (fitNormalMat F) with
  | some m => (diagOf m).map sqrtQ
  | none => List.replicate ((oktempOf F.A F.fit_mask).count true) 0

/-- Number of template rows (beyond the background rows). -/
def fitNTemp (F : FitInputs) : ℕ :=
  F.A.length - F.Next

/-- full_coeffs of fit_at_z: the solved coefficients beyond the
background block scattered into the template positions that passed
the oktemp filter; dropped templates stay 0. -/
def fitFullCoeffs (F : FitInputs)
    (nnls : List (List ℚ) → List ℚ → List ℚ) : List ℚ :=
  scatterVals ((oktempOf F.A F.fit_mask).drop F.Next)
    ((nnls (fitAxT F) (fitDataVec F)).drop F.Next)

/-- full_coeffs_err of fit_at_z: covard beyond the background block
scattered into the same positions. -/
def fitFullErrs (F : FitInputs) (sqrtQ : ℚ → ℚ) : List ℚ :=
  scatterVals ((oktempOf F.A F.fit_mask).drop F.Next)
    ((fitCovard F sqrtQ).drop F.Next)

/-- A concrete input whose weighted normal matrix is singular: one
template row, unit mask, zero root inverse variance. -/
def singFitInputs : FitInputs where
  Next := 0
  A := [[1]]
  fit_mask := [true]
  sivarf := [0]
  scif := [5]

/-- A trivial stand-in for the external NNLS solver, used only to
instantiate witnesses. -/
def nnlsZero (_A : List (List ℚ)) (_d : List ℚ) : List ℚ :=
  [0]

/-- Identity stand-in for the square root parameter. -/
def idQ (q : ℚ) : ℚ :=
  q

/-- The name ATA referenced by the uncertainty branch of
fit_combined_at_z: it is never bound in that function (its assignment
only exists in a comment), so evaluating it fails. -/
def combinedATA : Option (List (List ℚ)) :=
  none

/-- covard of fit_combined_at_z: the try block inverts the normal
matrix, takes the root diagonal, then evaluates np.dot(ATA.T, ATA)
with the unbound name ATA, which fails; the bare except replaces
covard with np.zeros(oktemp.sum()). -/
def combinedCovard (AxT : List (List ℚ)) (sqrtQ : ℚ → ℚ) (nok : ℕ) : List ℚ :=
  match (do
    let covar ← gjInv (matMul (matT AxT) AxT)
    let covard := (diagOf covar).map sqrtQ
    let ata ← combinedATA
    let _ ← gjInv (matMul (matT ata) ata)
    pure covard : Option (List ℚ)) with
  | some c => c
  | none => List.replicate nok 0

/-- full_coeffs_err of fit_combined_at_z. -/
def combinedFullErrs (nbg : ℕ) (A : List (List ℚ)) (fit_mask : List Bool)
    (AxT : List (List ℚ)) (sqrtQ : ℚ → ℚ) : List ℚ :=
  scatterVals ((oktempOf A fit_mask).drop nbg)
    ((combinedCovard AxT sqrtQ ((oktempOf A fit_mask).count true)).drop nbg)

/-! ## The weighted joint inverse variance (StackFitter.__init__ and
the chi-square of fit_at_z)

__init__ concatenates the per-unit arrays, multiplies the joint
inverse variance by the contamination weights in place, takes the
root, cuts the mask at the min_ivar floor of the weighted inverse
variance and counts the weighted degrees of freedom; fit_at_z squares
the stored root inverse variance in the chi-square, and on the
nonnegative values sqrt(v)^2 = v, so the embedding uses the weighted
inverse variance directly where the source squares sivarf. -/

structure DUnit where
  scif : List ℚ
  ivarf : List ℚ
  wavef : List ℚ
  weightf : List ℚ
  fit_mask : List Bool
deriving DecidableEq

/-- np.hstack of the per-unit adjusted inverse variances. -/
def catIvarf (Es : List DUnit) : List ℚ :=
  (Es.map (fun E => E.ivarf)).flatten

/-- np.hstack of the per-unit contamination weights. -/
def catWeightf (Es : List DUnit) : List ℚ :=
  (Es.map (fun E => E.weightf)).flatten

/-- np.hstack of the per-unit fit masks. -/
def catMask (Es : List DUnit) : List Bool :=
  (Es.map (fun E => E.fit_mask)).flatten

/-- The joint inverse variance after self.ivarf *= self.weightf. -/
def stackIvarf (Es : List DUnit) : List ℚ :=
  List.zipWith (fun v w => v * w) (catIvarf Es) (catWeightf Es)

/-- Maximum of a list (np.max), 0 on the empty list. -/
def listMax : List ℚ → ℚ
  | [] => 0
  | x :: xs => xs.foldl max x

/-- The joint fit mask after the floor cut
self.fit_mask &= self.ivarf > min_ivar * self.ivarf.max(), taken on
the weighted inverse variance. -/
def stackMask (Es : List DUnit) (minIvar : ℚ) : List Bool :=
  List.zipWith (fun m v => m && decide (v > minIvar * listMax (stackIvarf Es)))
    (catMask Es) (stackIvarf Es)

/-- Degrees of freedom int((fit_mask * weightf).sum()); the int cast
of the source truncates, which on this nonnegative sum is the floor. -/
def stackDoF (Es : List DUnit) (minIvar : ℚ) : ℤ :=
  ⌊(List.zipWith (fun m w => boolQ m * w) (stackMask Es minIvar) (catWeightf Es)).sum⌋

/-- Chi-square of fit_at_z over the joint mask:
sum(resid[mask]^2 * sivarf[mask]^2) with sivarf^2 the weighted
inverse variance. -/
def stackChi2 (Es : List DUnit) (minIvar : ℚ) (resid : List ℚ) : ℚ :=
  (List.zipWith3 (fun m r v => boolQ m * (r ^ 2 * v))
    (stackMask Es minIvar) resid (stackIvarf Es)).sum

/-- Foil written from the claim for comparison: the floor cut taken on
the raw concatenated inverse variance instead of the weighted one. -/
def stackMaskRawVariant (Es : List DUnit) (minIvar : ℚ) : List Bool :=
  List.zipWith (fun m v => m && decide (v > minIvar * listMax (catIvarf Es)))
    (catMask Es) (catIvarf Es)

/-- Foil written from the claim for comparison: the chi-square taken
with the raw inverse variance and the raw-cut mask. -/
def stackChi2RawVariant (Es : List DUnit) (minIvar : ℚ) (resid : List ℚ) : ℚ :=
  (List.zipWith3 (fun m r v => boolQ m * (r ^ 2 * v))
    (stackMaskRawVariant Es minIvar) resid (catIvarf Es)).sum

/-- Foil written from the claim for comparison: degrees of freedom
counted with the raw-cut mask. -/
def stackDoFRawVariant (Es : List DUnit) (minIvar : ℚ) : ℤ :=
  ⌊(List.zipWith (fun m w => boolQ m * w) (stackMaskRawVariant Es minIvar)
    (catWeightf Es)).sum⌋

/-- A one-pixel unit with a contamination weight of one half. -/
def wUnitA : DUnit where
  scif := [1]
  ivarf := [4]
  wavef := [1]
  weightf := [1 / 2]
  fit_mask := [true]

/-- A one-pixel unit with unit contamination weight. -/
def wUnitB : DUnit where
  scif := [2]
  ivarf := [1]
  wavef := [2]
  weightf := [1]
  fit_mask := [true]

/-! ## Redshift grid refinement (fit_zgrid)

The coarse grid is evaluated first; the loop for iter in range(1, 7)
then six times finds the minimum of chi-square plus the interpolated
prior over the current grid, rebuilds a grid of four steps of size
dz0/2.02^iter on either side of it, evaluates chi-square there and
appends the new points; at the end everything is sorted by redshift.
The fit at one redshift enters as the oracle chi. -/

/-- Tail of np.interp: walk the bracketing intervals, clamping to the
last value beyond the right end. -/
def npInterpGo (x : ℚ) : ℚ → ℚ → List ℚ → List ℚ → ℚ
  | _, f0, [], _ => f0
  | _, f0, _, [] => f0
  | x0, f0, x1 :: xs, f1 :: fs =>
    if x ≤ x1 then f0 + (f1 - f0) * (x - x0) / (x1 - x0)
    else npInterpGo x x1 f1 xs fs

/-- np.interp x xp fp: linear interpolation with clamping at both
ends. -/
def npInterp (x : ℚ) (xp fp : List ℚ) : ℚ :=
  match xp, fp with
  | [], _ => 0
  | _, [] => 0
  | x0 :: xs, f0 :: fs => if x ≤ x0 then f0 else npInterpGo x x0 f0 xs fs

/-- Helper of np.argmin: running first index of the minimum. -/
def argminAux : List ℚ → ℕ → ℚ → ℕ → ℕ
  | [], _, _, best => best
  | x :: xs, i, bv, best =>
    if x < bv then argminAux xs (i + 1) x i else argminAux xs (i + 1) bv best

/-- np.argmin: first index of the minimum, 0 on the empty list. -/
def npArgmin : List ℚ → ℕ
  | [] => 0
  | x :: xs => argminAux xs 1 x 0

/-- Modelled from the spec: grizli.utils.log_zgrid (the helper lives
outside this file), the logarithmically spaced redshift grid with step
dz in dz/(1+z): repeated stepping z to z + dz*(1+z) from the lower
bound while below the upper bound, with a recursion bound for
totality. -/
def logZGridAux (dz zmax : ℚ) : ℕ → ℚ → List ℚ
  | 0, _ => []
  | fuel + 1, z =>
    if z < zmax then z :: logZGridAux dz zmax fuel (z + dz * (1 + z)) else []

/-- Modelled from the spec: the log-spaced grid over a redshift
range. -/
def log_zgrid (zr : ℚ × ℚ) (dz : ℚ) : List ℚ :=
  logZGridAux dz zr.2 100000 zr.1

/-- Chi-square plus the linearly interpolated prior (cp of the
refinement loop); without a prior the plain chi-square. -/
def priorAdd (prior : Option (List ℚ × List ℚ)) (zi ci : List ℚ) : List ℚ :=
  match prior with
  | none => ci
  | some p => List.zipWith (fun c q => c + q) ci (zi.map (fun z => npInterp z p.1 p.2))

/-- State of the refinement loop: the accumulated grid and
chi-squares, and the grid and chi-squares of the current iteration. -/
structure ZScan where
  zAcc : List ℚ
  cAcc : List ℚ
  zi : List ℚ
  ci : List ℚ

/-- The refined grid built inside iteration k of the loop: four steps
of size dz0/2.02^k on either side of the grid point minimizing
chi-square plus the interpolated prior over the current grid. -/
def refineGridOf (prior : Option (List ℚ × List ℚ)) (dz0 : ℚ)
    (zi ci : List ℚ) (k : ℕ) : List ℚ :=
  log_zgrid
    (zi.getD (npArgmin (priorAdd prior zi ci)) 0 - dz0 / (101 / 50) ^ k * 4,
     zi.getD (npArgmin (priorAdd prior zi ci)) 0 + dz0 / (101 / 50) ^ k * 4)
    (dz0 / (101 / 50) ^ k)

/-- One iteration of the refinement loop of fit_zgrid: evaluate the
oracle on the refined grid and append the new points. -/
def refineStep (chi : ℚ → ℚ) (prior : Option (List ℚ × List ℚ)) (dz0 : ℚ)
    (st : ZScan) (k : ℕ) : ZScan :=
  ⟨st.zAcc ++ refineGridOf prior dz0 st.zi st.ci k,
   st.cAcc ++ (refineGridOf prior dz0 st.zi st.ci k).map chi,
   refineGridOf prior dz0 st.zi st.ci k,
   (refineGridOf prior dz0 st.zi st.ci k).map chi⟩

/-- The accumulated and sorted (z, chi2) curve of fit_zgrid: coarse
evaluation, six refinement iterations, final sort by redshift. -/
def fitZgridCurve (chi : ℚ → ℚ) (prior : Option (List ℚ × List ℚ)) (dz0 : ℚ)
    (zgrid : List ℚ) : List (ℚ × ℚ) :=
  let st := (List.range' 1 6).foldl (refineStep chi prior dz0)
    ⟨zgrid, zgrid.map chi, zgrid, zgrid.map chi⟩
  (st.zAcc.zip st.cAcc).mergeSort (fun p q => decide (p.1 ≤ q.1))

/-- The grid of refinement block k as the claim describes it (block 0
is the coarse grid): four steps of size dz0/2.02^k on either side of
the point of the previous block minimizing chi-square plus prior. -/
def refineBlockZ (chi : ℚ → ℚ) (prior : Option (List ℚ × List ℚ)) (dz0 : ℚ)
    (zgrid : List ℚ) : ℕ → List ℚ
  | 0 => zgrid
  | k + 1 =>
    refineGridOf prior dz0 (refineBlockZ chi prior dz0 zgrid k)
      ((refineBlockZ chi prior dz0 zgrid k).map chi) (k + 1)

/-- The (z, chi2) pairs contributed by block k. -/
def blockPairs (chi : ℚ → ℚ) (prior : Option (List ℚ × List ℚ)) (dz0 : ℚ)
    (zgrid : List ℚ) (k : ℕ) : List (ℚ × ℚ) :=
  (refineBlockZ chi prior dz0 zgrid k).zip
    ((refineBlockZ chi prior dz0 zgrid k).map chi)

/-! # Theorems -/

theorem qsum_congr (n : ℕ) (f g : ℕ → ℚ) (h : ∀ i, i < n → f i = g i) :
    qsum n f = qsum n g := by
  induction n with
  | zero => rfl
  | succ m ih =>
    simp only [qsum]
    rw [ih fun i hi => h i (Nat.lt_succ_of_lt hi), h m (Nat.lt_succ_self m)]

theorem qsum_eq_zero (n : ℕ) (f : ℕ → ℚ) (h : ∀ i, i < n → f i = 0) :
    qsum n f = 0 := by
  induction n with
  | zero => rfl
  | succ m ih =>
    simp only [qsum]
    rw [ih fun i hi => h i (Nat.lt_succ_of_lt hi), h m (Nat.lt_succ_self m)]
    simp

theorem qsum_mul_left (n : ℕ) (a : ℚ) (f : ℕ → ℚ) :
    qsum n (fun i => a * f i) = a * qsum n f := by
  induction n with
  | zero => simp [qsum]
  | succ m ih =>
    simp only [qsum]
    rw [ih, mul_add]

/-- C2, general part: on a valid column the optimal extraction of the
flat reference model returns the column sum of the flat model, and so
returns 1 exactly when that column sum is 1. -/
theorem optimal_extract_flat_recovers_column_sum (ny : ℕ)
    (flat ivar : ℕ → ℕ → ℚ) (c : ℕ)
    (hval : extractDen ny flat ivar c ≠ 0) :
    optFlux ny flat flat ivar c = colSum ny flat c ∧
    (optFlux ny flat flat ivar c = 1 ↔ colSum ny flat c = 1) := by
  have hcs : colSum ny flat c ≠ 0 := by
    intro h0
    apply hval
    apply qsum_eq_zero
    intro r _
    simp [profCol, h0]
  have hnum : extractNum ny flat flat ivar c =
      colSum ny flat c * extractDen ny flat ivar c := by
    unfold extractNum extractDen
    rw [← qsum_mul_left]
    apply qsum_congr
    intro r _
    have hflat : flat r c = profCol ny flat r c * colSum ny flat c := by
      unfold profCol
      field_simp
    calc profCol ny flat r c * flat r c * ivar r c
        = profCol ny flat r c * (profCol ny flat r c * colSum ny flat c) * ivar r c := by
          rw [← hflat]
      _ = colSum ny flat c * (profCol ny flat r c ^ 2 * ivar r c) := by ring
  have hmain : optFlux ny flat flat ivar c = colSum ny flat c := by
    unfold optFlux
    rw [hnum, mul_div_assoc, div_self hval, mul_one]
  exact ⟨hmain, by rw [hmain]⟩

/-- C2, witness: a concrete valid column of a concrete exposure where
the extraction of the flat model indeed returns the column sum of the
flat model. -/
theorem optimal_extract_flat_recovers_column_sum_witness :
    extractDen 2 flatQuarter onesImg 1 ≠ 0 ∧
    optFlux 2 flatQuarter flatQuarter onesImg 1 = colSum 2 flatQuarter 1 :=
  ⟨by norm_num [extractDen, profCol, colSum, qsum, flatQuarter, flatPix, fitData,
      kernelQuarter, onesImg],
   (optimal_extract_flat_recovers_column_sum 2 flatQuarter onesImg 1
      (by norm_num [extractDen, profCol, colSum, qsum, flatQuarter, flatPix, fitData,
        kernelQuarter, onesImg])).1⟩

/-- C2, counterexample: at the last detector column of a 2 x 4
exposure with the constant normalized kernel and unit inverse
variance, the extraction is valid (nonzero denominator) yet the
extracted flux of the flat model equals 1/2, not 1: the claim that the
flux is 1 at every valid column is false at the truncated edge. -/
theorem optimal_extract_flat_edge_counterexample :
    extractDen 2 flatQuarter onesImg 3 ≠ 0 ∧
    optFlux 2 flatQuarter flatQuarter onesImg 3 = 1 / 2 ∧
    optFlux 2 flatQuarter flatQuarter onesImg 3 ≠ 1 := by
  refine ⟨?_, ?_, ?_⟩ <;>
    norm_num [optFlux, extractNum, extractDen, profCol, colSum, qsum, flatQuarter,
      flatPix, fitData, kernelQuarter, onesImg]

/-- C1, amended: every template is redshifted as wave*(1+z) and
flux/(1+z); in fit_at_z the IGM transmission is additionally applied
exactly when z > 7 and the external computation succeeds, regardless
of photometry, and any failure falls back to unit transmission; the
photometry-joint fit fit_combined_at_z never applies an IGM factor. -/
theorem fit_at_z_igm_correction (z : ℚ) (t : Template)
    (igmResult : Option (List ℚ)) :
    (fitAtZSpectrum z t igmResult).1 = t.wave.map (fun w => w * (1 + z)) ∧
    (¬ 7 < z ∨ igmResult = none →
      (fitAtZSpectrum z t igmResult).2 = t.flux.map (fun f => f / (1 + z))) ∧
    (∀ g, 7 < z → igmResult = some g →
      (fitAtZSpectrum z t igmResult).2 =
        (t.flux.zip g).map (fun p => p.1 / (1 + z) * p.2)) ∧
    combinedSpectrum z t =
      (t.wave.map (fun w => w * (1 + z)), t.flux.map (fun f => f / (1 + z))) := by
  refine ⟨rfl, ?_, ?_, rfl⟩
  · rintro (hz | hnone)
    · simp [fitAtZSpectrum, appliedIgm, hz, fluxWithIgm]
    · subst hnone
      cases h7 : decide (7 < z) <;>
        simp_all [fitAtZSpectrum, appliedIgm, fluxWithIgm]
  · rintro g hz rfl
    simp [fitAtZSpectrum, appliedIgm, hz, fluxWithIgm]

/-- C1, witness: concrete evaluations of the amended statement at
z = 8 with a successful IGM computation. -/
theorem fit_at_z_igm_correction_witness :
    (¬ 7 < (8 : ℚ) ∨ (some [(1 : ℚ) / 2] : Option (List ℚ)) = none →
      (fitAtZSpectrum 8 ⟨[10], [9]⟩ (some [1 / 2])).2 =
        [(9 : ℚ)].map (fun f => f / (1 + 8))) ∧
    (∀ g, 7 < (8 : ℚ) → (some [(1 : ℚ) / 2] : Option (List ℚ)) = some g →
      (fitAtZSpectrum 8 ⟨[10], [9]⟩ (some [1 / 2])).2 =
        ([(9 : ℚ)].zip g).map (fun p => p.1 / (1 + 8) * p.2)) :=
  ⟨(fit_at_z_igm_correction 8 ⟨[10], [9]⟩ (some [1 / 2])).2.1,
   (fit_at_z_igm_correction 8 ⟨[10], [9]⟩ (some [1 / 2])).2.2.1⟩

/-- C1, counterexample: fit_at_z operates on the purely spectroscopic
data vector (it is the fit without photometry), yet at z = 8 with a
successful IGM computation it multiplies the transmission into the
flux: the template flux is not flux/(1+z), contradicting the claim
that the correction is applied exactly when the fit includes
photometry and z > 7.  The photometry-joint fit at the same redshift
applies no correction at all. -/
theorem fit_at_z_igm_photometry_counterexample :
    (fitAtZSpectrum 8 ⟨[10], [9]⟩ (some [1 / 2])).2 ≠
      [(9 : ℚ)].map (fun f => f / (1 + 8)) ∧
    (fitAtZSpectrum 8 ⟨[10], [9]⟩ (some [1 / 2])).2 = [1 / 2] ∧
    (combinedSpectrum 8 ⟨[10], [9]⟩).2 = [1] := by
  refine ⟨?_, ?_, ?_⟩ <;>
    norm_num [fitAtZSpectrum, combinedSpectrum, appliedIgm, fluxWithIgm]

/-! ## Slice and background theorems (C6) -/

theorem sliceStart_cons_succ (s : ℕ) (ss : List ℕ) (i : ℕ) :
    sliceStart (s :: ss) (i + 1) = s + sliceStart ss i := by
  simp [sliceStart, List.take_succ_cons]

theorem getSlicesFrom_eq (sizes : List ℕ) : ∀ x : ℕ,
    getSlicesFrom x sizes =
      (List.range sizes.length).map
        (fun i => (x + sliceStart sizes i, x + sliceStart sizes (i + 1))) := by
  induction sizes with
  | nil => intro x; rfl
  | cons s ss ih =>
    intro x
    rw [List.length_cons, List.range_succ_eq_map, List.map_cons, List.map_map]
    have hhead : (x + sliceStart (s :: ss) 0, x + sliceStart (s :: ss) (0 + 1)) =
        (x, x + s) := by
      simp [sliceStart, List.take_succ_cons]
    show (x, x + s) :: getSlicesFrom (x + s) ss = _ :: _
    rw [hhead]
    congr 1
    rw [ih (x + s)]
    apply List.map_congr_left
    intro i _
    simp only [Function.comp_apply, Nat.succ_eq_add_one, sliceStart_cons_succ]
    rw [Prod.ext_iff]
    constructor <;> dsimp only <;> omega

theorem getSlices_eq (sizes : List ℕ) :
    getSlices sizes = (List.range sizes.length).map
      (fun i => (sliceStart sizes i, sliceStart sizes (i + 1))) := by
  rw [getSlices, getSlicesFrom_eq]
  simp

theorem abgEntry_eq (sizes : List ℕ) (i d : ℕ) (hi : i < sizes.length) :
    abgEntry sizes i d =
      if sliceStart sizes i ≤ d ∧ d < sliceStart sizes (i + 1) then 1 else 0 := by
  have hz : (getSlices sizes).get? i =
      some (sliceStart sizes i, sliceStart sizes (i + 1)) := by
    rw [getSlices_eq, List.get?_eq_getElem?, List.getElem?_map, List.getElem?_range hi]
    rfl
  unfold abgEntry
  rw [hz]

theorem abgEntry_of_ge (sizes : List ℕ) (i d : ℕ) (hi : sizes.length ≤ i) :
    abgEntry sizes i d = 0 := by
  have hz : (getSlices sizes).get? i = none := by
    rw [List.get?_eq_getElem?, List.getElem?_eq_none]
    rw [getSlices_eq]
    simpa using hi
  unfold abgEntry
  rw [hz]

theorem sliceStart_le_succ (sizes : List ℕ) (i : ℕ) :
    sliceStart sizes i ≤ sliceStart sizes (i + 1) := by
  by_cases hi : i < sizes.length
  · rw [sliceStart, sliceStart, List.sum_take_succ _ _ hi]
    exact Nat.le_add_right _ _
  · have h1 : sizes.take i = sizes := List.take_of_length_le (by omega)
    have h2 : sizes.take (i + 1) = sizes := List.take_of_length_le (by omega)
    simp [sliceStart, h1, h2]

theorem sliceStart_mono (sizes : List ℕ) {i j : ℕ} (h : i ≤ j) :
    sliceStart sizes i ≤ sliceStart sizes j :=
  monotone_nat_of_le_succ (sliceStart_le_succ sizes) h

theorem sliceStart_exists (sizes : List ℕ) (d : ℕ) (hd : d < sizes.sum) :
    ∃ i, i < sizes.length ∧ sliceStart sizes i ≤ d ∧ d < sliceStart sizes (i + 1) := by
  induction sizes generalizing d with
  | nil => simp at hd
  | cons s ss ih =>
    by_cases hds : d < s
    · refine ⟨0, by simp, by simp [sliceStart], ?_⟩
      rw [sliceStart_cons_succ]
      have h0 : sliceStart ss 0 = 0 := rfl
      omega
    · have hsum : d - s < ss.sum := by
        rw [List.sum_cons] at hd
        omega
      obtain ⟨i, hi, h1, h2⟩ := ih (d - s) hsum
      refine ⟨i + 1, by simpa using hi, ?_, ?_⟩
      · rw [sliceStart_cons_succ]
        omega
      · rw [sliceStart_cons_succ]
        omega

/-- C6: for every stack with at least one exposure unit, the
background design block is a 0/1 indicator matrix; row i is 1 exactly
on the slice of unit i; the slices are contiguous (each slice starts
where the previous ends, the first starts at 0, the last ends at the
total size, each has the length of its unit); and every spectroscopic
index below the total size lies in exactly one row's support. -/
theorem background_partition (sizes : List ℕ) (_hne : 1 ≤ sizes.length) :
    (∀ i d, abgEntry sizes i d = 0 ∨ abgEntry sizes i d = 1) ∧
    (∀ i, i < sizes.length → ∀ d,
      (abgEntry sizes i d = 1 ↔
        sliceStart sizes i ≤ d ∧ d < sliceStart sizes (i + 1))) ∧
    getSlices sizes = (List.range sizes.length).map
      (fun i => (sliceStart sizes i, sliceStart sizes (i + 1))) ∧
    sliceStart sizes 0 = 0 ∧
    sliceStart sizes sizes.length = sizes.sum ∧
    (∀ i, i < sizes.length →
      sliceStart sizes (i + 1) = sliceStart sizes i + sizes.getD i 0) ∧
    (∀ d, d < sizes.sum → ∃! i, i < sizes.length ∧ abgEntry sizes i d = 1) := by
  refine ⟨?_, ?_, getSlices_eq sizes, rfl, ?_, ?_, ?_⟩
  · intro i d
    by_cases hi : i < sizes.length
    · rw [abgEntry_eq sizes i d hi]
      by_cases hc : sliceStart sizes i ≤ d ∧ d < sliceStart sizes (i + 1) <;>
        simp [hc]
    · left
      exact abgEntry_of_ge sizes i d (by omega)
  · intro i hi d
    rw [abgEntry_eq sizes i d hi]
    by_cases hc : sliceStart sizes i ≤ d ∧ d < sliceStart sizes (i + 1) <;>
      simp [hc]
  · rw [sliceStart, List.take_length]
  · intro i hi
    rw [sliceStart, sliceStart, List.sum_take_succ _ _ hi]
    congr 1
    rw [List.getD_eq_getElem?_getD, List.getElem?_eq_getElem hi]
    rfl
  · intro d hd
    obtain ⟨i, hi, h1, h2⟩ := sliceStart_exists sizes d hd
    refine ⟨i, ⟨hi, ?_⟩, ?_⟩
    · rw [abgEntry_eq sizes i d hi]
      simp [h1, h2]
    · rintro j ⟨hj, habg⟩
      rw [abgEntry_eq sizes j d hj] at habg
      by_cases hcond : sliceStart sizes j ≤ d ∧ d < sliceStart sizes (j + 1)
      · rcases Nat.lt_trichotomy j i with hlt | heq | hgt
        · have hm := sliceStart_mono sizes (show j + 1 ≤ i by omega)
          omega
        · exact heq
        · have hm := sliceStart_mono sizes (show i + 1 ≤ j by omega)
          omega
      · simp [hcond] at habg

/-- C6, witness: for the two-unit stack with sizes 3 and 2, the data
index 4 lies in exactly one background row's support. -/
theorem background_partition_witness :
    1 ≤ ([3, 2] : List ℕ).length ∧
    (∃! i, i < ([3, 2] : List ℕ).length ∧ abgEntry [3, 2] i 4 = 1) :=
  ⟨by norm_num,
   (background_partition [3, 2] (by norm_num)).2.2.2.2.2.2 4 (by norm_num)⟩

/-! ## Fit-mask monotonicity theorems (C7) -/

theorem zipWith_and_getD_le (a b : List Bool) (i : ℕ) :
    (List.zipWith (fun m n => m && n) a b).getD i false ≤ a.getD i false := by
  induction a generalizing b i with
  | nil => simp
  | cons x xs ih =>
    cases b with
    | nil => simp
    | cons y ys =>
      cases i with
      | zero => simpa using Bool.and_le_left x y
      | succ n => simpa using ih ys n

/-- C7: both mutations of a fit mask after construction, the overlap
masking of mask_drizzle_overlaps (with the per-grism minimum image
computed over the sibling exposure units) and the outlier rejection of
fit_zgrid, are boolean AND updates: at every index the updated mask is
below the previous mask, so a cleared entry never becomes set and the
mask is monotonically non-increasing over the object lifetime. -/
theorem fit_mask_monotone (E : EUnitMask) (Es : List EUnitMask) (thr : ℚ)
    (jointMask : List Bool) (scif fullz bgz sivarf : List ℚ) (i : ℕ) :
    (drizzleUpdatedMask E (minGrism Es) thr).getD i false ≤ E.fit_mask.getD i false ∧
    (outlierUpdatedMask jointMask scif fullz bgz sivarf thr).getD i false ≤
      jointMask.getD i false :=
  ⟨zipWith_and_getD_le _ _ i, zipWith_and_getD_le _ _ i⟩

/-! ## area25 theorems (C5) -/

theorem trapz_cons2 (y0 y1 x0 x1 : ℚ) (ys xs : List ℚ) :
    trapz (y0 :: y1 :: ys) (x0 :: x1 :: xs) =
      (x1 - x0) * (y0 + y1) / 2 + trapz (y1 :: ys) (x1 :: xs) := rfl

theorem trapz_zeros : ∀ (ys xs : List ℚ), (∀ y ∈ ys, y = 0) → trapz ys xs = 0
  | [], _, _ => rfl
  | [_], _, _ => rfl
  | _ :: _ :: _, [], _ => rfl
  | _ :: _ :: _, [_], _ => rfl
  | y0 :: y1 :: ys, x0 :: x1 :: xs, h => by
    rw [trapz_cons2,
      trapz_zeros (y1 :: ys) (x1 :: xs) (fun y hy => h y (List.mem_cons_of_mem _ hy))]
    rw [h y0 (by simp), h y1 (by simp)]
    ring

theorem trapz_const_consecQ (c : ℚ) : ∀ (k : ℕ) (a : ℚ),
    trapz (List.replicate (k + 1) c) (consecQ a k) = c * k
  | 0, a => by simp [consecQ, trapz]
  | k + 1, a => by
    have ih := trapz_const_consecQ c k (a + 1)
    have hc : consecQ a (k + 1) = a :: consecQ (a + 1) k := rfl
    have hr : List.replicate (k + 1 + 1) c = c :: List.replicate (k + 1) c := rfl
    rw [hc, hr]
    cases k with
    | zero =>
      show trapz [c, c] [a, a + 1] = c * ((0 : ℕ) + 1 : ℕ)
      rw [trapz_cons2]
      norm_num [trapz]
    | succ n =>
      have hc2 : consecQ (a + 1) (n + 1) = (a + 1) :: consecQ (a + 1 + 1) n := rfl
      have hr2 : List.replicate (n + 1 + 1) c = c :: List.replicate (n + 1) c := rfl
      rw [hc2, hr2, trapz_cons2, ← hr2, ← hc2, ih]
      push_cast
      ring

theorem trapz_dip (m : ℕ) (a : ℚ) :
    trapz (0 :: List.replicate (m + 1) 25) (consecQ a (m + 1)) = 25 / 2 + 25 * m := by
  have hc : consecQ a (m + 1) = a :: consecQ (a + 1) m := rfl
  have hr : List.replicate (m + 1) (25 : ℚ) = 25 :: List.replicate m 25 := rfl
  rw [hc, hr]
  cases m with
  | zero =>
    show trapz [0, 25] [a, a + 1] = 25 / 2 + 25 * ((0 : ℕ) : ℚ)
    rw [trapz_cons2]
    norm_num [trapz]
  | succ n =>
    have hc2 : consecQ (a + 1) (n + 1) = (a + 1) :: consecQ (a + 1 + 1) n := rfl
    have hr2 : List.replicate (n + 1) (25 : ℚ) = 25 :: List.replicate n 25 := rfl
    rw [hc2, hr2, trapz_cons2, ← hr2, ← hc2]
    rw [show (25 : ℚ) :: List.replicate (n + 1) 25 = List.replicate (n + 1 + 1) 25 from rfl]
    rw [trapz_const_consecQ 25 (n + 1) (a + 1)]
    push_cast
    ring

theorem foldl_min_zero_replicate (k : ℕ) :
    (List.replicate k (25 : ℚ)).foldl min 0 = 0 := by
  induction k with
  | zero => rfl
  | succ n ih =>
    rw [List.replicate_succ, List.foldl_cons]
    have h : min (0 : ℚ) 25 = 0 := by norm_num
    rw [h, ih]

theorem listMin_dipCurve (n : ℕ) : listMin (dipCurve n) = 0 := by
  have h1 : min (25 : ℚ) 0 = 0 := by norm_num
  simp only [dipCurve, listMin, List.foldl_cons, h1, foldl_min_zero_replicate]

theorem foldl_min_self (c : ℚ) (l : List ℚ) :
    (l.map fun _ => c).foldl min c = c := by
  induction l with
  | nil => rfl
  | cons x xs ih =>
    rw [List.map_cons, List.foldl_cons, min_self]
    exact ih

theorem area25_flat (z : List ℚ) (c : ℚ) : area25 z (z.map fun _ => c) = 1 := by
  have hnum : trapz ((z.map fun _ => c).map
      (fun v => clipQ (v - listMin (z.map fun _ => c)) 0 25)) z = 0 := by
    apply trapz_zeros
    intro y hy
    rw [List.map_map] at hy
    obtain ⟨x, hx, rfl⟩ := List.mem_map.mp hy
    cases z with
    | nil => simp at hx
    | cons z0 zs =>
      have hmin : listMin ((z0 :: zs).map fun _ => c) = c := by
        rw [List.map_cons, listMin]
        exact foldl_min_self c zs
      simp only [Function.comp_apply, hmin]
      norm_num [clipQ]
  rw [area25, hnum]
  simp

theorem mapconst_consecQ (c : ℚ) : ∀ (k : ℕ) (a : ℚ),
    (consecQ a k).map (fun _ => c) = List.replicate (k + 1) c
  | 0, a => rfl
  | k + 1, a => by
    have hc : consecQ a (k + 1) = a :: consecQ (a + 1) k := rfl
    rw [hc, List.map_cons, mapconst_consecQ c k (a + 1)]
    rfl

theorem area25_dip (m : ℕ) :
    area25 (consecQ 0 (m + 2)) (dipCurve (m + 2)) = 1 / (m + 2) := by
  have hmin := listMin_dipCurve (m + 2)
  have hmap : (dipCurve (m + 2)).map
      (fun v => clipQ (v - listMin (dipCurve (m + 2))) 0 25) = dipCurve (m + 2) := by
    rw [hmin, dipCurve]
    have h25 : clipQ (25 : ℚ) 0 25 = 25 := by norm_num [clipQ]
    have h0 : clipQ (0 : ℚ) 0 25 = 0 := by norm_num [clipQ]
    simp [List.map_replicate, sub_zero, h25, h0]
  have hnum : trapz (dipCurve (m + 2)) (consecQ 0 (m + 2)) = 25 * (m + 1) := by
    have hc : consecQ (0 : ℚ) (m + 2) = 0 :: consecQ (0 + 1) (m + 1) := rfl
    rw [dipCurve, hc]
    have hd : (m + 2 - 1 : ℕ) = m + 1 := by omega
    have hc2 : consecQ ((0 : ℚ) + 1) (m + 1) = (0 + 1) :: consecQ (0 + 1 + 1) m := rfl
    rw [hd, hc2, trapz_cons2, ← hc2, trapz_dip m (0 + 1)]
    ring
  have hden : trapz ((consecQ (0 : ℚ) (m + 2)).map (fun _ => (25 : ℚ)))
      (consecQ 0 (m + 2)) = 25 * (m + 2) := by
    rw [mapconst_consecQ 25 (m + 2) 0, trapz_const_consecQ 25 (m + 2) 0]
    push_cast
    ring
  rw [area25, hmap, hnum, hden]
  have hm2 : ((m : ℚ) + 2) ≠ 0 := by positivity
  rw [mul_div_mul_left _ _ (by norm_num : (25 : ℚ) ≠ 0)]
  rw [eq_div_iff hm2, sub_mul, div_mul_cancel₀ _ hm2, one_mul]
  ring

/-- C5, amended: the quality metric area25 equals 1 (not 0) for a
chi-square curve that is flat (constant) over the redshift grid, and
for a sharply peaked curve on an integer grid of m+3 points that sits
25 above its minimum away from a single-point dip it equals
1/(m+2), which tends to 0 (not 1) as the grid refines: a value near 0,
not near 1, indicates a well-constrained sharply peaked solution. -/
theorem area25_flat_one_peak_small (z : List ℚ) (c : ℚ) (m : ℕ) :
    area25 z (z.map fun _ => c) = 1 ∧
    area25 (consecQ 0 (m + 2)) (dipCurve (m + 2)) = 1 / (m + 2) :=
  ⟨area25_flat z c, area25_dip m⟩

/-- C5, counterexample: on the grid [0, 1] the flat curve constant at
25 has area25 = 1, not 0 as claimed; and on the 11-point integer grid
the sharply dipped curve (25 above the minimum everywhere but at the
single minimum point) has area25 = 1/10, near 0 rather than
approaching 1 as claimed for a narrow delta at the minimum. -/
theorem area25_counterexample :
    area25 [0, 1] ([0, 1].map fun _ => (25 : ℚ)) = 1 ∧
    (1 : ℚ) ≠ 0 ∧
    area25 (consecQ 0 10) (dipCurve 10) = 1 / 10 ∧
    (1 / 10 : ℚ) < 1 / 2 := by
  refine ⟨area25_flat [0, 1] 25, by norm_num, ?_, by norm_num⟩
  have h := area25_dip 8
  norm_num at h
  convert h using 2

/-! ## Exposure-unit exclusion theorems (C3) -/

/-- C3, amended: the keep/pop loop of StackFitter.__init__ excludes a
unit exactly when the sum of its normalized kernel is non-finite (the
finiteness of the flat-model sum coincides with this for absolutely
calibrated exposures but not in general); exclusion is silent and
complete: an excluded unit is absent from the kept list, while every
unit passing the test is retained, and the joint size, the slice list,
the background rows and the joint science vector are assembled from
the kept units only. -/
theorem stack_kernel_exclusion (units : List KUnit) :
    stackE units = units.filter (fun u => keepUnit u) ∧
    (∀ u, u ∈ units → keepUnit u = false → u ∉ stackE units) ∧
    (∀ u, u ∈ stackE units → u ∈ units ∧ keepUnit u = true) ∧
    (stackSlicesK units).length = (stackE units).length ∧
    stackNdata units = ((stackE units).map unitSize).sum ∧
    (∀ i d, (stackE units).length ≤ i → abgEntry (stackSizes units) i d = 0) ∧
    stackScifJoint units = ((stackE units).map (fun u => u.scif)).flatten := by
  refine ⟨rfl, ?_, ?_, ?_, rfl, ?_, rfl⟩
  · intro u _ hk hmem
    rw [stackE, List.mem_filter] at hmem
    rw [hmem.2] at hk
    exact Bool.noConfusion hk
  · intro u hu
    rw [stackE, List.mem_filter] at hu
    exact ⟨hu.1, hu.2⟩
  · rw [stackSlicesK, getSlices_eq]
    simp [stackSizes]
  · intro i d hi
    apply abgEntry_of_ge
    simpa [stackSizes] using hi

/-- C3, witness: the zero-sum kernel unit fails the finiteness test
and is indeed absent from the kept list of a stack containing it. -/
theorem stack_kernel_exclusion_witness :
    zeroKernelUnit ∈ [zeroKernelUnit, badSensUnit] ∧
    keepUnit zeroKernelUnit = false ∧
    zeroKernelUnit ∉ stackE [zeroKernelUnit, badSensUnit] :=
  ⟨by simp,
   by norm_num [keepUnit, kernelNormSum, kernelNormList, kernelRawSum, fsum, fadd, fdiv,
     zeroKernelUnit],
   (stack_kernel_exclusion [zeroKernelUnit, badSensUnit]).2.1 zeroKernelUnit (by simp)
     (by norm_num [keepUnit, kernelNormSum, kernelNormList, kernelRawSum, fsum, fadd, fdiv,
       zeroKernelUnit])⟩

theorem fmul_none (a : Flt) : fmul a none = none := by
  cases a <;> rfl

theorem fadd_none (a : Flt) : fadd a none = none := by
  cases a <;> rfl

/-- C3, counterexample: a unit that is not absolutely calibrated, with
a perfectly finite kernel but a non-finite sensitivity value, has a
flat reference model whose sum is non-finite, yet it passes the
kernel-sum test of StackFitter.__init__ and is kept: it does
contribute its slice and its pixels to the joint system, contradicting
the claim that a unit with non-finite flat-model sum is excluded
entirely. -/
theorem stack_flat_nonfinite_kept_counterexample :
    flatSumF badSensUnit = none ∧
    keepUnit badSensUnit = true ∧
    stackE [badSensUnit] = [badSensUnit] ∧
    (stackSlicesK [badSensUnit]).length = 1 ∧
    stackScifJoint [badSensUnit] = [5, 5, 5, 5] := by
  have hpix : ∀ r c, flatPixF badSensUnit r c = none := by
    intro r c
    rw [flatPixF, show badSensUnit.nx = 2 from rfl, fsumN,
      show List.range 2 = [0, 1] from rfl]
    simp only [List.map_cons, List.map_nil]
    rw [fsum]
    simp only [List.foldl_cons, List.foldl_nil]
    rw [show colFactor badSensUnit 1 = none from rfl, fmul_none, fadd_none]
  have hsum : flatSumF badSensUnit = none := by
    have hin : ∀ r, fsumN badSensUnit.nx (fun c => flatPixF badSensUnit r c) = none := by
      intro r
      rw [show badSensUnit.nx = 2 from rfl, fsumN, show List.range 2 = [0, 1] from rfl]
      simp only [List.map_cons, List.map_nil]
      rw [fsum]
      simp only [List.foldl_cons, List.foldl_nil]
      rw [hpix, hpix]
      rfl
    rw [flatSumF, show badSensUnit.ny = 2 from rfl, fsumN,
      show List.range 2 = [0, 1] from rfl]
    simp only [List.map_cons, List.map_nil]
    rw [fsum]
    simp only [List.foldl_cons, List.foldl_nil]
    rw [hin, hin]
    rfl
  have hkeep : keepUnit badSensUnit = true := by
    norm_num [keepUnit, kernelNormSum, kernelNormList, kernelRawSum, fsum, fadd, fdiv,
      badSensUnit]
  have hstack : stackE [badSensUnit] = [badSensUnit] := by
    rw [stackE, List.filter, hkeep]
    rfl
  refine ⟨hsum, hkeep, hstack, ?_, ?_⟩
  · rw [stackSlicesK, stackSizes, hstack, getSlices]
    rfl
  · rw [stackScifJoint, hstack]
    rfl

/-! ## Covariance failure theorems (C8, C9) -/

theorem scatterVals_length (mask : List Bool) (vs : List ℚ) :
    (scatterVals mask vs).length = mask.length := by
  induction mask generalizing vs with
  | nil => rfl
  | cons m ms ih =>
    cases m with
    | false => simpa [scatterVals] using ih vs
    | true =>
      cases vs with
      | nil => simpa [scatterVals] using ih []
      | cons v vs => simpa [scatterVals] using ih vs

theorem scatterVals_zeros (mask : List Bool) (vs : List ℚ)
    (h : ∀ v ∈ vs, v = 0) :
    scatterVals mask vs = List.replicate mask.length 0 := by
  induction mask generalizing vs with
  | nil => rfl
  | cons m ms ih =>
    cases m with
    | false =>
      rw [show scatterVals (false :: ms) vs = 0 :: scatterVals ms vs from rfl,
        List.length_cons, List.replicate_succ, ih vs h]
    | true =>
      cases vs with
      | nil =>
        rw [show scatterVals (true :: ms) [] = 0 :: scatterVals ms [] from rfl,
          List.length_cons, List.replicate_succ, ih [] (by simp)]
      | cons v vs =>
        rw [show scatterVals (true :: ms) (v :: vs) = v :: scatterVals ms vs from rfl,
          List.length_cons, List.replicate_succ,
          ih vs (fun w hw => h w (List.mem_cons_of_mem v hw)), h v (by simp)]

theorem scatterVals_getD_of_false (mask : List Bool) (vs : List ℚ) (i : ℕ)
    (h : mask.getD i false = false) :
    (scatterVals mask vs).getD i 0 = 0 := by
  induction mask generalizing vs i with
  | nil => simp [scatterVals]
  | cons m ms ih =>
    cases i with
    | zero =>
      simp only [List.getD_cons_zero] at h
      subst h
      rfl
    | succ n =>
      simp only [List.getD_cons_succ] at h
      cases m with
      | false =>
        rw [show scatterVals (false :: ms) vs = 0 :: scatterVals ms vs from rfl,
          List.getD_cons_succ]
        exact ih vs n h
      | true =>
        cases vs with
        | nil =>
          rw [show scatterVals (true :: ms) [] = 0 :: scatterVals ms [] from rfl,
            List.getD_cons_succ]
          exact ih [] n h
        | cons v vs =>
          rw [show scatterVals (true :: ms) (v :: vs) = v :: scatterVals ms vs from rfl,
            List.getD_cons_succ]
          exact ih vs n h

/-- C8: when the inversion of the weighted normal matrix
(design*sqrt(ivar))^T (design*sqrt(ivar)) fails on a singular matrix,
fit_at_z still returns: covard becomes the zero vector of length
oktemp.sum(), every template uncertainty in the output is 0, and the
templates dropped by the oktemp filter receive coefficient 0 and
uncertainty 0 for any behavior of the external solver. -/
theorem fit_at_z_singular_covar_zeros (F : FitInputs) (sqrtQ : ℚ → ℚ)
    (nnls : List (List ℚ) → List ℚ → List ℚ)
    (hsing : gjInv (fitNormalMat F) = none) :
    fitCovard F sqrtQ = List.replicate ((oktempOf F.A F.fit_mask).count true) 0 ∧
    fitFullErrs F sqrtQ = List.replicate (fitNTemp F) 0 ∧
    (∀ i, ((oktempOf F.A F.fit_mask).drop F.Next).getD i false = false →
      (fitFullCoeffs F nnls).getD i 0 = 0 ∧ (fitFullErrs F sqrtQ).getD i 0 = 0) := by
  have hcov : fitCovard F sqrtQ =
      List.replicate ((oktempOf F.A F.fit_mask).count true) 0 := by
    rw [fitCovard, hsing]
  have herr : fitFullErrs F sqrtQ = List.replicate (fitNTemp F) 0 := by
    rw [fitFullErrs, hcov]
    rw [scatterVals_zeros _ _ (fun v hv =>
      List.eq_of_mem_replicate (List.mem_of_mem_drop hv))]
    rw [List.length_drop, fitNTemp]
    rw [show (oktempOf F.A F.fit_mask).length = F.A.length from List.length_map _ _]
  refine ⟨hcov, herr, ?_⟩
  intro i hi
  exact ⟨scatterVals_getD_of_false _ _ i hi, scatterVals_getD_of_false _ _ i hi⟩

/-- C8, witness: a concrete singular instance (one template, zero
root inverse variance) where the uncertainty output is the zero
vector. -/
theorem fit_at_z_singular_covar_zeros_witness :
    gjInv (fitNormalMat singFitInputs) = none ∧
    fitFullErrs singFitInputs idQ = List.replicate (fitNTemp singFitInputs) 0 := by
  have hsing : gjInv (fitNormalMat singFitInputs) = none := by
    norm_num [gjInv, gjAux, firstNonzeroIdx, fitNormalMat, fitAxT, fitAx, matMul, matT,
      dotQ, rowsKept, maskedCols, oktempOf, boolQ, identQ, singFitInputs,
      List.range_succ]
  exact ⟨hsing,
    (fit_at_z_singular_covar_zeros singFitInputs idQ nnlsZero hsing).2.1⟩

/-- C9: the covariance block of fit_combined_at_z always takes the
except branch, because after inverting the normal matrix it evaluates
the name ATA, which is never bound in that function; covard is
therefore the zero vector and the returned coefficient uncertainties
are all zero regardless of the data, the redshift or the scale fit. -/
theorem fit_combined_uncertainties_always_zero (nbg : ℕ) (A : List (List ℚ))
    (fit_mask : List Bool) (AxT : List (List ℚ)) (sqrtQ : ℚ → ℚ) :
    combinedCovard AxT sqrtQ ((oktempOf A fit_mask).count true) =
      List.replicate ((oktempOf A fit_mask).count true) 0 ∧
    combinedFullErrs nbg A fit_mask AxT sqrtQ =
      List.replicate (A.length - nbg) 0 := by
  have hcov : ∀ nok : ℕ, combinedCovard AxT sqrtQ nok = List.replicate nok 0 := by
    intro nok
    rw [combinedCovard]
    cases h : gjInv (matMul (matT AxT) AxT) with
    | none => rfl
    | some m => rfl
  refine ⟨hcov _, ?_⟩
  rw [combinedFullErrs, hcov]
  rw [scatterVals_zeros _ _ (fun v hv =>
    List.eq_of_mem_replicate (List.mem_of_mem_drop hv))]
  rw [List.length_drop]
  rw [show (oktempOf A fit_mask).length = A.length from List.length_map _ _]

/-! ## Weighted inverse variance theorems (C10) -/

theorem stackIvarf_eq_flatten (Es : List DUnit)
    (hlen : ∀ E ∈ Es, E.ivarf.length = E.weightf.length) :
    stackIvarf Es =
      (Es.map (fun E => List.zipWith (fun v w => v * w) E.ivarf E.weightf)).flatten := by
  induction Es with
  | nil => rfl
  | cons E Es ih =>
    have hE := hlen E (List.mem_cons_self E Es)
    have ih2 := ih (fun E2 h2 => hlen E2 (List.mem_cons_of_mem E h2))
    rw [stackIvarf, catIvarf, catWeightf, List.map_cons, List.map_cons,
      List.flatten_cons, List.flatten_cons, List.zipWith_append _ _ _ _ _ hE,
      List.map_cons, List.flatten_cons]
    rw [stackIvarf, catIvarf, catWeightf] at ih2
    rw [ih2]

theorem maskCut_getD (ms : List Bool) (vs : List ℚ) (t : ℚ) (i : ℕ) :
    (List.zipWith (fun m v => m && decide (v > t)) ms vs).getD i false = true ↔
      ms.getD i false = true ∧ i < vs.length ∧ vs.getD i 0 > t := by
  induction ms generalizing vs i with
  | nil => simp
  | cons m ms ih =>
    cases vs with
    | nil => simp
    | cons v vs =>
      cases i with
      | zero => simp
      | succ n =>
        simpa using ih vs n

/-- C10: the joint inverse variance assembled by __init__ is the
concatenation of the per-unit inverse variances multiplied pointwise
by the contamination weights, and this weighted inverse variance, not
the raw one, is what enters the min_ivar floor cut of the joint fit
mask, the chi-square weighting of fit_at_z, and (through the cut mask
and the weights) the degrees-of-freedom count; on a concrete two-unit
stack the weighted quantities differ from the raw-variant foils in
all three places. -/
theorem stack_weighted_ivar_pipeline (Es : List DUnit) (minIvar : ℚ)
    (resid : List ℚ)
    (hlen : ∀ E ∈ Es, E.ivarf.length = E.weightf.length) :
    stackIvarf Es =
      (Es.map (fun E => List.zipWith (fun v w => v * w) E.ivarf E.weightf)).flatten ∧
    (∀ i, (stackMask Es minIvar).getD i false = true ↔
      (catMask Es).getD i false = true ∧ i < (stackIvarf Es).length ∧
        (stackIvarf Es).getD i 0 > minIvar * listMax (stackIvarf Es)) ∧
    stackChi2 Es minIvar resid =
      (List.zipWith3 (fun m r v => boolQ m * (r ^ 2 * v))
        (stackMask Es minIvar) resid
        (List.zipWith (fun v w => v * w) (catIvarf Es) (catWeightf Es))).sum ∧
    stackDoF Es minIvar =
      ⌊(List.zipWith (fun m w => boolQ m * w) (stackMask Es minIvar)
        (catWeightf Es)).sum⌋ ∧
    stackMask [wUnitA, wUnitB] (3 / 10) ≠ stackMaskRawVariant [wUnitA, wUnitB] (3 / 10) ∧
    stackChi2 [wUnitA, wUnitB] (3 / 10) [1, 1] = 3 ∧
    stackChi2RawVariant [wUnitA, wUnitB] (3 / 10) [1, 1] = 4 ∧
    stackDoF [wUnitA, wUnitB] (3 / 10) = 1 ∧
    stackDoFRawVariant [wUnitA, wUnitB] (3 / 10) = 0 := by
  refine ⟨stackIvarf_eq_flatten Es hlen, ?_, rfl, rfl, ?_, ?_, ?_, ?_, ?_⟩
  · intro i
    exact maskCut_getD (catMask Es) (stackIvarf Es) _ i
  · norm_num [stackMask, stackMaskRawVariant, stackIvarf, catIvarf, catWeightf,
      catMask, listMax, wUnitA, wUnitB]
  · norm_num [stackChi2, stackMask, stackIvarf, catIvarf, catWeightf, catMask,
      listMax, boolQ, wUnitA, wUnitB, List.zipWith3]
  · norm_num [stackChi2RawVariant, stackMaskRawVariant, catIvarf, catWeightf,
      catMask, listMax, boolQ, wUnitA, wUnitB, List.zipWith3]
  · norm_num [stackDoF, stackMask, stackIvarf, catIvarf, catWeightf, catMask,
      listMax, boolQ, wUnitA, wUnitB]
  · norm_num [stackDoFRawVariant, stackMaskRawVariant, catIvarf, catWeightf,
      catMask, listMax, boolQ, wUnitA, wUnitB]

/-- C10, witness: the two-unit stack satisfies the length hypothesis,
and its joint inverse variance is the concatenation of the per-unit
weighted inverse variances. -/
theorem stack_weighted_ivar_pipeline_witness :
    (∀ E ∈ [wUnitA, wUnitB], E.ivarf.length = E.weightf.length) ∧
    stackIvarf [wUnitA, wUnitB] =
      ([wUnitA, wUnitB].map
        (fun E => List.zipWith (fun v w => v * w) E.ivarf E.weightf)).flatten :=
  ⟨by decide,
   (stack_weighted_ivar_pipeline [wUnitA, wUnitB] (3 / 10) [1, 1] (by decide)).1⟩

/-! ## Redshift refinement theorems (C4) -/

theorem zip_flatten_map (f : ℚ → ℚ) (Ls : List (List ℚ)) :
    Ls.flatten.zip ((Ls.map (fun l => l.map f)).flatten) =
      (Ls.map (fun l => l.zip (l.map f))).flatten := by
  induction Ls with
  | nil => rfl
  | cons l Ls ih =>
    simp only [List.flatten_cons, List.map_cons]
    rw [List.zip_append (by simp), ih]

theorem refineLoop_state (chi : ℚ → ℚ) (prior : Option (List ℚ × List ℚ))
    (dz0 : ℚ) (zgrid : List ℚ) : ∀ n : ℕ,
    (List.range' 1 n).foldl (refineStep chi prior dz0)
        ⟨zgrid, zgrid.map chi, zgrid, zgrid.map chi⟩ =
      ⟨((List.range (n + 1)).map (refineBlockZ chi prior dz0 zgrid)).flatten,
       ((List.range (n + 1)).map
         (fun k => (refineBlockZ chi prior dz0 zgrid k).map chi)).flatten,
       refineBlockZ chi prior dz0 zgrid n,
       (refineBlockZ chi prior dz0 zgrid n).map chi⟩ := by
  intro n
  induction n with
  | zero =>
    show (⟨zgrid, zgrid.map chi, zgrid, zgrid.map chi⟩ : ZScan) = _
    rw [show List.range 1 = [0] from rfl]
    simp [refineBlockZ]
  | succ m ih =>
    have hcat : ∀ L : ℕ → List ℚ,
        ((List.range (m + 1)).map L).flatten ++ L (m + 1) =
          ((List.range (m + 1 + 1)).map L).flatten := by
      intro L
      nth_rewrite 2 [List.range_succ]
      rw [List.map_append, List.flatten_append]
      simp
    rw [List.range'_1_concat, List.foldl_append, ih, List.foldl_cons, List.foldl_nil,
      show 1 + m = m + 1 from Nat.add_comm 1 m]
    simp only [refineStep, ZScan.mk.injEq]
    refine ⟨?_, ?_, rfl, rfl⟩
    · show _ ++ refineBlockZ chi prior dz0 zgrid (m + 1) = _
      exact hcat (refineBlockZ chi prior dz0 zgrid)
    · show _ ++ (refineBlockZ chi prior dz0 zgrid (m + 1)).map chi = _
      exact hcat (fun k => (refineBlockZ chi prior dz0 zgrid k).map chi)

/-- C4: the refinement of fit_zgrid runs exactly 6 iterations;
iteration k (k = 1..6) centers on the point of the current grid
minimizing chi-square plus the linearly interpolated prior (when one
is supplied) and evaluates the oracle on a new grid of four steps of
size dz0/2.02^k on either side of it (the recurrence of
refineBlockZ); the final curve is exactly the coarse block and the 6
refinement blocks merged: a permutation of all accumulated points
(none removed), sorted by redshift. -/
theorem fit_zgrid_refinement_structure (chi : ℚ → ℚ)
    (prior : Option (List ℚ × List ℚ)) (dz0 : ℚ) (zgrid : List ℚ) :
    fitZgridCurve chi prior dz0 zgrid =
      (((List.range 7).map (blockPairs chi prior dz0 zgrid)).flatten).mergeSort
        (fun p q => decide (p.1 ≤ q.1)) ∧
    (fitZgridCurve chi prior dz0 zgrid).Perm
      (((List.range 7).map (blockPairs chi prior dz0 zgrid)).flatten) ∧
    List.Pairwise (fun p q : ℚ × ℚ => p.1 ≤ q.1)
      (fitZgridCurve chi prior dz0 zgrid) ∧
    (∀ k, refineBlockZ chi prior dz0 zgrid (k + 1) =
      refineGridOf prior dz0 (refineBlockZ chi prior dz0 zgrid k)
        ((refineBlockZ chi prior dz0 zgrid k).map chi) (k + 1)) := by
  have hmain : fitZgridCurve chi prior dz0 zgrid =
      (((List.range 7).map (blockPairs chi prior dz0 zgrid)).flatten).mergeSort
        (fun p q => decide (p.1 ≤ q.1)) := by
    rw [fitZgridCurve, refineLoop_state chi prior dz0 zgrid 6]
    have hmap : (List.range 7).map
        (fun k => (refineBlockZ chi prior dz0 zgrid k).map chi) =
        ((List.range 7).map (refineBlockZ chi prior dz0 zgrid)).map
          (fun l => l.map chi) := by
      rw [List.map_map]
      rfl
    have hpairs : (List.range 7).map (blockPairs chi prior dz0 zgrid) =
        ((List.range 7).map (refineBlockZ chi prior dz0 zgrid)).map
          (fun l => l.zip (l.map chi)) := by
      rw [List.map_map]
      rfl
    show (List.zip _ _).mergeSort _ = _
    rw [hmap, hpairs, zip_flatten_map]
  refine ⟨hmain, ?_, ?_, fun k => rfl⟩
  · rw [hmain]
    exact List.mergeSort_perm _ _
  · rw [hmain]
    have hsorted := @List.sorted_mergeSort (ℚ × ℚ)
      (fun p q : ℚ × ℚ => decide (p.1 ≤ q.1))
      (fun a b c hab hbc => by
        simp only [decide_eq_true_eq] at *
        exact le_trans hab hbc)
      (fun a b => by
        simp only [Bool.or_eq_true, decide_eq_true_eq]
        exact le_total a.1 b.1)
      (((List.range 7).map (blockPairs chi prior dz0 zgrid)).flatten)
    exact hsorted.imp (fun h => by simpa using h)
